import Mathlib

/-!
Verification of the Cherry range-adapter library (`include/cherry.hpp`).

The C++ views (`ShiftRange`, `ReversedRange`, `IndexingRange`, `JoinedRange`)
all operate on a "range": anything with `begin/end` (and `rbegin/rend`)
iterators.  All iterators involved are random-access, so an iterator is
modelled as an integer position together with a dereference function carried
by the range model.  A range model records the forward iterator interval
`[fwdBegin, fwdEnd)` with its dereference map, and likewise the reverse
iterator interval; traversing a range is mapping the dereference function
over the interval, exactly as the C++ loop `for (it = begin(); it != end(); ++it)`
does for random-access iterators.
-/

set_option autoImplicit false

namespace Cherry

variable {α : Type}

/-- Model of a C++ range: forward iterator interval and dereference, and
reverse iterator interval and dereference.  An iterator is an `Int` position;
`deref` evaluates `*it` at such a position. -/
structure RangeModel (α : Type) where
  fwdBegin : Int
  fwdEnd : Int
  fwdDeref : Int → α
  revBegin : Int
  revEnd : Int
  revDeref : Int → α

/-- Number of elements of the range, as computed by `range.end() - range.begin()`. -/
def RangeModel.size (r : RangeModel α) : Int :=
  r.fwdEnd - r.fwdBegin

/-- Forward traversal: `for (it = begin(); it != end(); ++it)` collecting `*it`. -/
def traverseFwd (r : RangeModel α) : List α :=
  (List.range (r.fwdEnd - r.fwdBegin).toNat).map (fun k : Nat => r.fwdDeref (r.fwdBegin + (k : Int)))

/-- Reverse traversal: `for (it = rbegin(); it != rend(); ++it)` collecting `*it`. -/
def traverseRev (r : RangeModel α) : List α :=
  (List.range (r.revEnd - r.revBegin).toNat).map (fun k : Nat => r.revDeref (r.revBegin + (k : Int)))

/-- Model of a `std::vector` (the base container in the tests): forward
iterator `i` dereferences to `xs[i]`, reverse iterator `j` to
`xs[size - 1 - j]`; both intervals are `[0, size)`. -/
def vecRange [Inhabited α] (xs : List α) : RangeModel α where
  fwdBegin := 0
  fwdEnd := xs.length
  fwdDeref := fun i => xs.getD i.toNat default
  revBegin := 0
  revEnd := xs.length
  revDeref := fun j => xs.getD (xs.length - 1 - j.toNat) default

/-- Resolution of the `length` argument of the `ShiftRange` constructor:
`length == -1 ? range.end() - range.begin() - pos : length`. -/
def shiftLen (r : RangeModel α) (pos length : Int) : Int :=
  if length = -1 then r.size - pos else length

/-- Model of `ShiftRange(range, pos, length)` (cherry.hpp lines 81-121):
`begin() = range.begin() + pos`, `end() = range.begin() + pos + length`,
`rbegin() = range.rbegin() + (size - (pos + length))`,
`rend() = range.rbegin() + (size - pos)`; the iterators are the base
range's iterators, so the dereference maps are inherited. -/
def shiftRange (r : RangeModel α) (pos length : Int) : RangeModel α :=
  { fwdBegin := r.fwdBegin + pos
    fwdEnd := r.fwdBegin + pos + shiftLen r pos length
    fwdDeref := r.fwdDeref
    revBegin := r.revBegin + (r.size - (pos + shiftLen r pos length))
    revEnd := r.revBegin + (r.size - pos)
    revDeref := r.revDeref }

/-- Model of the `ShiftRange` constructor together with its
`assert(pos + this->length <= range.end() - range.begin())`: `none` models
the failed assertion (abort). -/
def shiftRangeChecked (r : RangeModel α) (pos length : Int) : Option (RangeModel α) :=
  if pos + shiftLen r pos length ≤ r.size then some (shiftRange r pos length) else none

/-- Model of `ReversedRange(range)` (cherry.hpp lines 140-184):
`begin() = range.rbegin()`, `end() = range.rend()`,
`rbegin() = range.begin()`, `rend() = range.end()`. -/
def reversedRange (r : RangeModel α) : RangeModel α where
  fwdBegin := r.revBegin
  fwdEnd := r.revEnd
  fwdDeref := r.revDeref
  revBegin := r.fwdBegin
  revEnd := r.fwdEnd
  revDeref := r.fwdDeref

/-- Well-formedness of a range model, the implicit "range capability
contract" of the library: the forward interval is ordered, the reverse
interval has the same size, and the reverse iterator at offset `k`
dereferences to the element the forward iterator reaches `k` steps before
its end. -/
structure RangeWF (r : RangeModel α) : Prop where
  fwd_le : r.fwdBegin ≤ r.fwdEnd
  rev_size : r.revEnd - r.revBegin = r.size
  rev_deref : ∀ k : Nat, (k : Int) < r.size →
    r.revDeref (r.revBegin + k) = r.fwdDeref (r.fwdEnd - 1 - k)

theorem vecRange_wf [Inhabited α] (xs : List α) : RangeWF (vecRange xs) := by
  refine ⟨?_, ?_, ?_⟩
  · simp [vecRange]
  · simp [vecRange, RangeModel.size]
  · intro k hk
    simp only [vecRange, RangeModel.size, sub_zero] at hk ⊢
    congr 1
    omega

theorem traverseFwd_shift_vec (xs : List Int) (lenArg : Int) (p l : Nat)
    (hL : shiftLen (vecRange xs) (p : Int) lenArg = (l : Int)) (h : p + l ≤ xs.length) :
    traverseFwd (shiftRange (vecRange xs) (p : Int) lenArg) = (xs.drop p).take l := by
  apply List.ext_getElem
  · simp only [traverseFwd, shiftRange]
    rw [hL]
    simp only [vecRange, List.length_map, List.length_range, List.length_take,
      List.length_drop]
    omega
  · intro i h1 h2
    simp only [traverseFwd, shiftRange] at h1 ⊢
    simp only [hL] at h1 ⊢
    simp only [vecRange, List.length_map, List.length_range] at h1
    simp only [vecRange, List.getElem_map, List.getElem_range, List.getElem_take,
      List.getElem_drop]
    rw [List.getD_eq_getElem _ _ (by omega)]
    exact getElem_congr (by omega)

section ShiftReverse

/-- C1: forward-iterating `shift(C, pos, length)` yields exactly `length`
elements, identical to the slice `C[pos : pos+length]`, and an unspecified
length (the `-1` default) resolves to `size(C) - pos`, yielding the whole
remainder of `C` after `pos`. -/
theorem shift_slice_spec (xs : List Int) (pos len : Nat) (h : pos + len ≤ xs.length) :
    traverseFwd (shiftRange (vecRange xs) pos len) = (xs.drop pos).take len ∧
    (traverseFwd (shiftRange (vecRange xs) pos len)).length = len ∧
    shiftLen (vecRange xs) pos (-1) = (xs.length : Int) - pos ∧
    traverseFwd (shiftRange (vecRange xs) pos (-1)) = xs.drop pos := by
  have hlen : shiftLen (vecRange xs) (pos : Int) (len : Int) = len := by
    simp only [shiftLen]
    rw [if_neg (by omega)]
  have hdef : shiftLen (vecRange xs) (pos : Int) (-1) = (xs.length : Int) - pos := by
    simp [shiftLen, vecRange, RangeModel.size]
  have e1 : traverseFwd (shiftRange (vecRange xs) pos len) = (xs.drop pos).take len :=
    traverseFwd_shift_vec xs len pos len hlen h
  have e2 : traverseFwd (shiftRange (vecRange xs) pos (-1)) =
      (xs.drop pos).take (xs.length - pos) :=
    traverseFwd_shift_vec xs (-1) pos (xs.length - pos) (by rw [hdef]; omega) (by omega)
  refine ⟨e1, ?_, hdef, ?_⟩
  · rw [e1]
    simp
    omega
  · rw [e2, List.take_of_length_le (by simp)]

theorem shift_slice_spec_witness :
    traverseFwd (shiftRange (vecRange ([5, 6, 7, 8, 9] : List Int)) 1 3) = [6, 7, 8] ∧
    traverseFwd (shiftRange (vecRange ([5, 6, 7, 8, 9] : List Int)) 2 (-1)) = [7, 8, 9] := by
  have h := shift_slice_spec [5, 6, 7, 8, 9] 1 3 (by decide)
  have h2 := shift_slice_spec [5, 6, 7, 8, 9] 2 0 (by decide)
  exact ⟨h.1, h2.2.2.2⟩

/-- C5: `reverse` is an involution on the traversal sequence —
`ReversedRange` swaps the forward and reverse iterator quadruples of its
base, so two applications restore the base traversal exactly. -/
theorem reverse_involution_spec (r : RangeModel α) :
    traverseFwd (reversedRange (reversedRange r)) = traverseFwd r := rfl

/-- C9: the `ShiftRange` constructor asserts
`pos + length <= range.end() - range.begin()` (with the `-1` default
resolved to `size - pos` first): constructing with a too-large window fails
the assertion (modelled `none`), otherwise construction succeeds and the
failure branch is unreachable. -/
theorem shift_precondition_spec (r : RangeModel Int) (pos length : Int) :
    (r.size < pos + shiftLen r pos length → shiftRangeChecked r pos length = none) ∧
    (pos + shiftLen r pos length ≤ r.size →
      shiftRangeChecked r pos length = some (shiftRange r pos length)) := by
  constructor
  · intro hgt
    simp only [shiftRangeChecked]
    rw [if_neg (by omega)]
  · intro hle
    simp only [shiftRangeChecked]
    rw [if_pos hle]

theorem shift_precondition_spec_witness :
    shiftRangeChecked (vecRange ([0, 0, 0] : List Int)) 2 2 = none ∧
    shiftRangeChecked (vecRange ([0, 0, 0] : List Int)) 1 2 =
      some (shiftRange (vecRange ([0, 0, 0] : List Int)) 1 2) := by
  constructor
  · exact (shift_precondition_spec (vecRange [0, 0, 0]) 2 2).1 (by decide)
  · exact (shift_precondition_spec (vecRange [0, 0, 0]) 1 2).2 (by decide)

/-- C4: composing the views as `reverse(shift(R, pos, length))` traverses
exactly the reverse of the window `R[pos : pos+length]`, not of all of `R`:
`ShiftRange::rbegin` offsets the base's reverse iterator by the
end-complement `size(R) - (pos + length)` and `ShiftRange::rend` by
`size(R) - pos`, so the reverse span is the restricted window walked
backward. -/
theorem reverse_shift_window_spec (r : RangeModel Int) (hr : RangeWF r) (pos len : Nat)
    (h : (pos : Int) + len ≤ r.size) :
    traverseFwd (reversedRange (shiftRange r pos len)) =
      (((traverseFwd r).drop pos).take len).reverse := by
  have hsize : r.size = r.fwdEnd - r.fwdBegin := rfl
  have hle := hr.fwd_le
  have hL : shiftLen r (pos : Int) (len : Int) = (len : Int) := by
    simp only [shiftLen]
    rw [if_neg (by omega)]
  have htlen : (((traverseFwd r).drop pos).take len).length = len := by
    rw [List.length_take, List.length_drop]
    apply Nat.min_eq_left
    simp only [traverseFwd, List.length_map, List.length_range]
    omega
  apply List.ext_getElem
  · rw [List.length_reverse, htlen]
    simp only [traverseFwd, reversedRange, shiftRange, hL, List.length_map,
      List.length_range]
    omega
  · intro i h1 h2
    simp only [traverseFwd, reversedRange, shiftRange, hL, List.length_map,
      List.length_range] at h1
    simp only [List.getElem_reverse, htlen, List.getElem_take, List.getElem_drop]
    simp only [traverseFwd, reversedRange, shiftRange, hL, List.getElem_map,
      List.getElem_range]
    have harg : r.revBegin + (r.size - ((pos : Int) + len)) + (i : Int) =
        r.revBegin + ((r.size - (pos : Int) - len).toNat + i : Nat) := by
      omega
    rw [harg, hr.rev_deref ((r.size - (pos : Int) - len).toNat + i) (by omega)]
    congr 1
    omega

theorem reverse_shift_window_spec_witness :
    traverseFwd (reversedRange (shiftRange (vecRange ([0, 1, 2, 3, 4] : List Int)) 1 3)) =
      [3, 2, 1] := by
  have h := reverse_shift_window_spec (vecRange [0, 1, 2, 3, 4])
    (vecRange_wf [0, 1, 2, 3, 4]) 1 3 (by decide)
  have h2 : (((traverseFwd (vecRange ([0, 1, 2, 3, 4] : List Int))).drop 1).take 3).reverse =
      [3, 2, 1] := by decide
  exact h.trans h2

end ShiftReverse

/-- Model of `JoinedRange::Iterator` (cherry.hpp lines 317-361): the phase
flag `first`, the first range's current iterator and end iterator, and the
second range's current iterator.  Positions are `Int` as in `RangeModel`. -/
structure JoinIter where
  first : Bool
  iterator1 : Int
  iterator1_end : Int
  iterator2 : Int
  deriving DecidableEq, Repr

/-- The three-argument `Iterator` constructor, which initialises
`first = iterator1 != iterator1_end`. -/
def JoinIter.mk2 (i1 i1e i2 : Int) : JoinIter :=
  { first := decide (i1 ≠ i1e), iterator1 := i1, iterator1_end := i1e, iterator2 := i2 }

/-- Model of `JoinedRange::Iterator::operator++`: while in the first range
advance `iterator1` and drop the flag exactly when it reaches
`iterator1_end`; afterwards advance `iterator2`. -/
def JoinIter.inc (it : JoinIter) : JoinIter :=
  if it.first then
    if it.iterator1 + 1 = it.iterator1_end then
      { first := false, iterator1 := it.iterator1 + 1,
        iterator1_end := it.iterator1_end, iterator2 := it.iterator2 }
    else
      { first := it.first, iterator1 := it.iterator1 + 1,
        iterator1_end := it.iterator1_end, iterator2 := it.iterator2 }
  else
    { first := it.first, iterator1 := it.iterator1,
      iterator1_end := it.iterator1_end, iterator2 := it.iterator2 + 1 }

/-- Model of `JoinedRange::Iterator::operator==`: unequal phase flags are
never equal; otherwise the active underlying iterator decides. -/
def JoinIter.beq (it other : JoinIter) : Bool :=
  if it.first ≠ other.first then false
  else if it.first then decide (it.iterator1 = other.iterator1)
  else decide (it.iterator2 = other.iterator2)

/-- Iterated `operator++`. -/
def JoinIter.incN (it : JoinIter) : Nat → JoinIter
  | 0 => it
  | k + 1 => (it.incN k).inc

/-- Model of `JoinedRange::Iterator::operator*`:
`first ? *iterator1 : *iterator2`. -/
def joinDeref (f g : Int → α) (it : JoinIter) : α :=
  if it.first then f it.iterator1 else g it.iterator2

/-- Fuelled model of the iteration loop
`for (it = begin; it != end; ++it)` over a joined range. -/
def joinLoop (f g : Int → α) (endIt : JoinIter) : Nat → JoinIter → List α
  | 0, _ => []
  | fuel + 1, it =>
    if it.beq endIt then [] else joinDeref f g it :: joinLoop f g endIt fuel it.inc

/-- `JoinedRange::begin()`: `iterator(range1.begin(), range1.end(), range2.begin())`. -/
def joinBegin (r1 r2 : RangeModel α) : JoinIter :=
  JoinIter.mk2 r1.fwdBegin r1.fwdEnd r2.fwdBegin

/-- `JoinedRange::end()`: `iterator(false, range1.end(), range1.end(), range2.end())`. -/
def joinEnd (r1 r2 : RangeModel α) : JoinIter :=
  { first := false, iterator1 := r1.fwdEnd, iterator1_end := r1.fwdEnd,
    iterator2 := r2.fwdEnd }

/-- Forward traversal of `join(r1, r2)`; the fuel bounds the number of loop
steps, which the traversal theorem shows is exactly `size(r1) + size(r2)`. -/
def joinFwdTraverse (r1 r2 : RangeModel α) : List α :=
  joinLoop r1.fwdDeref r2.fwdDeref (joinEnd r1 r2)
    (r1.size.toNat + r2.size.toNat + 1) (joinBegin r1 r2)

/-- `JoinedRange::rbegin()`: `reverse_iterator(range2.rbegin(), range2.rend(), range1.rbegin())`. -/
def joinRBegin (r1 r2 : RangeModel α) : JoinIter :=
  JoinIter.mk2 r2.revBegin r2.revEnd r1.revBegin

/-- `JoinedRange::rend()`: `reverse_iterator(false, range2.rend(), range2.rend(), range1.rend())`. -/
def joinREnd (r1 r2 : RangeModel α) : JoinIter :=
  { first := false, iterator1 := r2.revEnd, iterator1_end := r2.revEnd,
    iterator2 := r1.revEnd }

/-- Reverse traversal of `join(r1, r2)`: the reverse iterator pair walks
`range2` backward first, then `range1` backward. -/
def joinRevTraverse (r1 r2 : RangeModel α) : List α :=
  joinLoop r2.revDeref r1.revDeref (joinREnd r1 r2)
    ((r2.revEnd - r2.revBegin).toNat + (r1.revEnd - r1.revBegin).toNat + 1)
    (joinRBegin r1 r2)

/-- Assignment `*it = v` through the forward join iterator after `k`
increments from `begin`, over `std::vector` bases: the dereference is a
reference into `a` at `iterator1` while `first` holds, into `b` at
`iterator2` afterwards. -/
def joinWriteAt (a b : List Int) (k : Nat) (v : Int) : List Int × List Int :=
  let it := (joinBegin (vecRange a) (vecRange b)).incN k
  if it.first then (a.set it.iterator1.toNat v, b) else (a, b.set it.iterator2.toNat v)

theorem incN_mk2_lt (b1 e1 b2 : Int) (k : Nat) (hk : (k : Int) < e1 - b1) :
    (JoinIter.mk2 b1 e1 b2).incN k =
      { first := true, iterator1 := b1 + k, iterator1_end := e1, iterator2 := b2 } := by
  induction k with
  | zero =>
    simp only [JoinIter.incN, JoinIter.mk2]
    have hne : b1 ≠ e1 := by omega
    simp [hne]
  | succ k ih =>
    rw [JoinIter.incN, ih (by omega)]
    simp only [JoinIter.inc]
    have hne : ¬(b1 + (k : Int) + 1 = e1) := by omega
    simp only [if_true, if_pos rfl, hne, if_false, if_neg hne, ite_true]
    simp
    omega

theorem incN_mk2_ge (b1 e1 b2 : Int) (h : b1 ≤ e1) (k : Nat) (hk : e1 - b1 ≤ (k : Int)) :
    (JoinIter.mk2 b1 e1 b2).incN k =
      { first := false, iterator1 := e1, iterator1_end := e1,
        iterator2 := b2 + ((k : Int) - (e1 - b1)) } := by
  induction k with
  | zero =>
    simp only [JoinIter.incN, JoinIter.mk2]
    have he : b1 = e1 := by omega
    subst he
    simp
  | succ k ih =>
    rw [JoinIter.incN]
    by_cases hk2 : e1 - b1 ≤ (k : Int)
    · rw [ih hk2]
      simp only [JoinIter.inc]
      simp
      omega
    · have hb : (k : Int) = e1 - b1 - 1 := by omega
      rw [incN_mk2_lt b1 e1 b2 k (by omega)]
      simp only [JoinIter.inc]
      have he : b1 + (k : Int) + 1 = e1 := by omega
      simp [he]
      omega

theorem joinLoop_succ (f g : Int → α) (endIt : JoinIter) (fuel : Nat) (it : JoinIter) :
    joinLoop f g endIt (fuel + 1) it =
      if it.beq endIt then [] else joinDeref f g it :: joinLoop f g endIt fuel it.inc :=
  rfl

theorem joinLoop_drop (f g : Int → α) (b1 e1 b2 e2 : Int) (h1 : b1 ≤ e1) (h2 : b2 ≤ e2) :
    ∀ m k : Nat, k + m = (e1 - b1).toNat + (e2 - b2).toNat →
      joinLoop f g
          { first := false, iterator1 := e1, iterator1_end := e1, iterator2 := e2 }
          (m + 1) ((JoinIter.mk2 b1 e1 b2).incN k) =
        ((List.range (e1 - b1).toNat).map (fun j : Nat => f (b1 + (j : Int))) ++
          (List.range (e2 - b2).toNat).map (fun j : Nat => g (b2 + (j : Int)))).drop k := by
  intro m
  induction m with
  | zero =>
    intro k hk
    rw [incN_mk2_ge b1 e1 b2 h1 k (by omega)]
    have he : b2 + ((k : Int) - (e1 - b1)) = e2 := by omega
    rw [he, joinLoop_succ]
    have hbeq : (JoinIter.beq
        { first := false, iterator1 := e1, iterator1_end := e1, iterator2 := e2 }
        { first := false, iterator1 := e1, iterator1_end := e1, iterator2 := e2 }) = true := by
      simp [JoinIter.beq]
    rw [hbeq]
    rw [List.drop_eq_nil_of_le (by simp; omega)]
    simp
  | succ m ih =>
    intro k hk
    have hbeq : (((JoinIter.mk2 b1 e1 b2).incN k).beq
        { first := false, iterator1 := e1, iterator1_end := e1, iterator2 := e2 }) = false := by
      by_cases hc : (k : Int) < e1 - b1
      · rw [incN_mk2_lt b1 e1 b2 k hc]
        simp [JoinIter.beq]
      · rw [incN_mk2_ge b1 e1 b2 h1 k (by omega)]
        simp only [JoinIter.beq]
        simp
        omega
    rw [joinLoop_succ, hbeq]
    simp only [Bool.false_eq_true, if_false]
    have hinc : ((JoinIter.mk2 b1 e1 b2).incN k).inc = (JoinIter.mk2 b1 e1 b2).incN (k + 1) :=
      rfl
    rw [hinc, ih (k + 1) (by omega)]
    have hklen : k < (((List.range (e1 - b1).toNat).map (fun j : Nat => f (b1 + (j : Int))) ++
        (List.range (e2 - b2).toNat).map (fun j : Nat => g (b2 + (j : Int))))).length := by
      simp
      omega
    conv_rhs => rw [List.drop_eq_getElem_cons hklen]
    congr 1
    by_cases hc : (k : Int) < e1 - b1
    · rw [incN_mk2_lt b1 e1 b2 k hc]
      simp only [joinDeref, ite_true, if_pos rfl]
      rw [List.getElem_append_left (by simp; omega)]
      simp
    · rw [incN_mk2_ge b1 e1 b2 h1 k (by omega)]
      simp only [joinDeref]
      rw [List.getElem_append_right (by simp; omega)]
      simp
      congr 1
      omega

theorem range_map_vec_fwd (xs : List Int) :
    (List.range ((xs.length : Int) - 0).toNat).map
      (fun j : Nat => xs.getD ((0 : Int) + (j : Int)).toNat default) = xs := by
  apply List.ext_getElem
  · simp
  · intro i h1 h2
    simp only [List.getElem_map, List.getElem_range]
    rw [List.getD_eq_getElem _ _ (by omega)]
    exact getElem_congr (by omega)

theorem range_map_vec_rev (xs : List Int) :
    (List.range ((xs.length : Int) - 0).toNat).map
      (fun j : Nat => xs.getD (xs.length - 1 - ((0 : Int) + (j : Int)).toNat) default) =
      xs.reverse := by
  apply List.ext_getElem
  · simp
  · intro i h1 h2
    simp only [List.length_map, List.length_range] at h1
    simp only [List.getElem_map, List.getElem_range, List.getElem_reverse]
    rw [List.getD_eq_getElem _ _ (by omega)]
    exact getElem_congr (by omega)

section Joined

/-- C2: `join(A, B)` traverses all of `A` then all of `B` — its length is
`size(A) + size(B)`, the first `size(A)` elements are `A` and the rest are
`B` — its reverse traversal walks `reverse(B)` then `reverse(A)`, and an
assignment through the forward join iterator at logical position `k`
mutates `A` at `k` while the iterator is in its first phase and `B` at
`k - size(A)` afterwards. -/
theorem join_concat_spec (a b : List Int) :
    joinFwdTraverse (vecRange a) (vecRange b) = a ++ b ∧
    (joinFwdTraverse (vecRange a) (vecRange b)).length = a.length + b.length ∧
    (joinFwdTraverse (vecRange a) (vecRange b)).take a.length = a ∧
    (joinFwdTraverse (vecRange a) (vecRange b)).drop a.length = b ∧
    joinRevTraverse (vecRange a) (vecRange b) = b.reverse ++ a.reverse ∧
    (∀ k v, k < a.length + b.length →
      joinWriteAt a b k v =
        if k < a.length then (a.set k v, b) else (a, b.set (k - a.length) v)) := by
  have hfwd : joinFwdTraverse (vecRange a) (vecRange b) = a ++ b := by
    have key := joinLoop_drop (fun i : Int => a.getD i.toNat default)
      (fun i : Int => b.getD i.toNat default) 0 (a.length : Int) 0 (b.length : Int)
      (by omega) (by omega)
      (((a.length : Int) - 0).toNat + ((b.length : Int) - 0).toNat) 0 (by omega)
    simp only [JoinIter.incN, List.drop_zero] at key
    simp only [joinFwdTraverse, joinBegin, joinEnd, vecRange, RangeModel.size]
    rw [key, range_map_vec_fwd, range_map_vec_fwd]
  have hrev : joinRevTraverse (vecRange a) (vecRange b) = b.reverse ++ a.reverse := by
    have key := joinLoop_drop
      (fun j : Int => b.getD (b.length - 1 - j.toNat) default)
      (fun j : Int => a.getD (a.length - 1 - j.toNat) default)
      0 (b.length : Int) 0 (a.length : Int) (by omega) (by omega)
      (((b.length : Int) - 0).toNat + ((a.length : Int) - 0).toNat) 0 (by omega)
    simp only [JoinIter.incN, List.drop_zero] at key
    simp only [joinRevTraverse, joinRBegin, joinREnd, vecRange, RangeModel.size]
    rw [key, range_map_vec_rev, range_map_vec_rev]
  refine ⟨hfwd, ?_, ?_, ?_, hrev, ?_⟩
  · rw [hfwd]
    simp
  · rw [hfwd, List.take_left]
  · rw [hfwd, List.drop_left]
  · intro k v hk
    simp only [joinWriteAt, joinBegin, vecRange]
    by_cases hc : k < a.length
    · rw [incN_mk2_lt 0 (a.length : Int) 0 k (by omega)]
      rw [if_pos hc]
      simp
    · rw [incN_mk2_ge 0 (a.length : Int) 0 (by omega) k (by omega)]
      rw [if_neg hc]
      have hidx : (((k : Int) - (a.length : Int))).toNat = k - a.length := by omega
      simp [hidx]

theorem join_concat_spec_witness :
    joinFwdTraverse (vecRange ([1, 2] : List Int)) (vecRange ([3, 4] : List Int)) =
      [1, 2, 3, 4] ∧
    joinRevTraverse (vecRange ([1, 2] : List Int)) (vecRange ([3, 4] : List Int)) =
      [4, 3, 2, 1] ∧
    joinWriteAt [1, 2] [3, 4] 2 9 = ([1, 2], [9, 4]) := by
  obtain ⟨h1, _, _, _, h5, h6⟩ := join_concat_spec [1, 2] [3, 4]
  refine ⟨h1.trans (by decide), ?_, ?_⟩
  · rw [h5]
    decide
  · rw [h6 2 9 (by decide)]
    decide

/-- C6: the join iterator's phase flag is one-way — once `first` is false no
sequence of increments makes it true again (so it flips at most once), and
more strongly, the flag is antitone along any increment sequence; moreover,
when the first range is empty, `begin()` already starts with `first = false`
because the constructor computes `first = iterator1 != iterator1_end`. -/
theorem join_phase_transition_spec :
    (∀ (it : JoinIter) (k : Nat), it.first = false → (it.incN k).first = false) ∧
    (∀ (it : JoinIter) (j k : Nat), j ≤ k →
      (it.incN k).first = true → (it.incN j).first = true) ∧
    (∀ (r1 r2 : RangeModel Int), r1.size = 0 → (joinBegin r1 r2).first = false) := by
  have hmono : ∀ (it : JoinIter) (k : Nat), it.first = false → (it.incN k).first = false := by
    intro it k hf
    induction k with
    | zero => exact hf
    | succ k ih =>
      rw [JoinIter.incN]
      simp [JoinIter.inc, ih]
  have hadd : ∀ (it : JoinIter) (j d : Nat), it.incN (j + d) = (it.incN j).incN d := by
    intro it j d
    induction d with
    | zero => rfl
    | succ d ih => rw [← Nat.add_assoc, JoinIter.incN, ih, JoinIter.incN]
  refine ⟨hmono, ?_, ?_⟩
  · intro it j k hjk htrue
    by_contra hfalse
    have hj : (it.incN j).first = false := by
      cases h : (it.incN j).first
      · rfl
      · exact absurd h hfalse
    have : (it.incN k).first = false := by
      have hk : k = j + (k - j) := by omega
      rw [hk, hadd]
      exact hmono _ _ hj
    rw [htrue] at this
    exact absurd this (by decide)
  · intro r1 r2 h0
    have he : r1.fwdBegin = r1.fwdEnd := by
      have : r1.size = r1.fwdEnd - r1.fwdBegin := rfl
      omega
    simp [joinBegin, JoinIter.mk2, he]

theorem join_phase_transition_spec_witness :
    ((JoinIter.mk false 0 0 5).incN 3).first = false ∧
    ((JoinIter.mk true 0 2 0).incN 0).first = true ∧
    (joinBegin (vecRange ([] : List Int)) (vecRange ([1, 2] : List Int))).first = false := by
  obtain ⟨h1, h2, h3⟩ := join_phase_transition_spec
  refine ⟨h1 (JoinIter.mk false 0 0 5) 3 rfl, ?_, h3 _ _ (by decide)⟩
  exact h2 (JoinIter.mk true 0 2 0) 0 1 (by decide) (by decide)

/-- C7: two join iterators compare equal exactly when their phase flags
agree and the active underlying iterator positions (the first range's while
in the first phase, the second range's afterwards) agree; in particular
iterators in different phases are never equal regardless of raw positions. -/
theorem join_iter_equality_spec (x y : JoinIter) :
    x.beq y = true ↔
      (x.first = y.first ∧
        (if x.first = true then x.iterator1 = y.iterator1
         else x.iterator2 = y.iterator2)) := by
  by_cases hf : x.first = y.first
  · cases hx : x.first
    · have hy : y.first = false := hf.symm.trans hx
      simp [JoinIter.beq, hx, hy]
    · have hy : y.first = true := hf.symm.trans hx
      simp [JoinIter.beq, hx, hy]
  · simp [JoinIter.beq, hf]

end Joined

/-- Model of `IndexingRange` forward traversal (cherry.hpp lines 209-284):
the iterator stores a const iterator into the `indexes` range, and
`operator*` returns `items[*index_const_iterator]`. -/
def indexingFwdTraverse (items : List Int) (indexes : RangeModel Int) : List Int :=
  (List.range (indexes.fwdEnd - indexes.fwdBegin).toNat).map
    (fun k : Nat => items.getD (indexes.fwdDeref (indexes.fwdBegin + (k : Int))).toNat default)

/-- Model of `IndexingRange` reverse traversal: `rbegin/rend` walk the
`indexes` range with its reverse iterators, still dereferencing into
`items`. -/
def indexingRevTraverse (items : List Int) (indexes : RangeModel Int) : List Int :=
  (List.range (indexes.revEnd - indexes.revBegin).toNat).map
    (fun k : Nat => items.getD (indexes.revDeref (indexes.revBegin + (k : Int))).toNat default)

/-- Assignment `*it = v` through the indexing iterator at forward position
`k`: the dereference is a reference to `items[indexes[k]]`, so the write
lands in `items` at that position. -/
def indexingWriteAt (items : List Int) (indexes : RangeModel Int) (k : Nat) (v : Int) :
    List Int :=
  items.set (indexes.fwdDeref (indexes.fwdBegin + (k : Int))).toNat v

section Indexing

/-- C3: `indexing(A, I)` at forward position `k` dereferences to `A[I[k]]`
for every `k < size(I)`; reverse iteration yields the same gathered
sequence backward; and assigning through the view mutates `A` in place at
position `I[k]`. -/
theorem indexing_gather_spec (items I : List Int)
    (hI : ∀ i ∈ I, 0 ≤ i ∧ i < (items.length : Int)) :
    (indexingFwdTraverse items (vecRange I)).length = I.length ∧
    (∀ k, k < I.length →
      (indexingFwdTraverse items (vecRange I)).getD k default =
        items.getD (I.getD k default).toNat default) ∧
    indexingRevTraverse items (vecRange I) =
      (indexingFwdTraverse items (vecRange I)).reverse ∧
    (∀ k v, k < I.length →
      indexingWriteAt items (vecRange I) k v = items.set (I.getD k default).toNat v) := by
  have hlen : (indexingFwdTraverse items (vecRange I)).length = I.length := by
    simp only [indexingFwdTraverse, vecRange, List.length_map, List.length_range]
    omega
  refine ⟨hlen, ?_, ?_, ?_⟩
  · intro k hk
    rw [List.getD_eq_getElem _ _ (by rw [hlen]; exact hk)]
    simp only [indexingFwdTraverse, vecRange, List.getElem_map, List.getElem_range]
    have h0 : ((0 : Int) + (k : Int)).toNat = k := by omega
    rw [h0]
  · apply List.ext_getElem
    · rw [List.length_reverse, hlen]
      simp only [indexingRevTraverse, vecRange, List.length_map, List.length_range]
      omega
    · intro i h1 h2
      simp only [indexingRevTraverse, vecRange, List.length_map, List.length_range] at h1
      simp only [List.getElem_reverse, hlen]
      simp only [indexingRevTraverse, indexingFwdTraverse, vecRange, List.getElem_map,
        List.getElem_range]
      have e1 : I.length - 1 - ((0 : Int) + (i : Int)).toNat =
          ((0 : Int) + ((I.length - 1 - i : Nat) : Int)).toNat := by omega
      rw [e1]
  · intro k v hk
    simp only [indexingWriteAt, vecRange]
    have h0 : ((0 : Int) + (k : Int)).toNat = k := by omega
    rw [h0]

theorem indexing_gather_spec_witness :
    (indexingFwdTraverse [5, 6, 7, 8, 9] (vecRange ([4, 3, 2, 1, 0] : List Int))).getD 0
        default = 9 ∧
    indexingRevTraverse [5, 6, 7, 8, 9] (vecRange ([4, 3, 2, 1, 0] : List Int)) =
      (indexingFwdTraverse [5, 6, 7, 8, 9] (vecRange [4, 3, 2, 1, 0])).reverse ∧
    indexingWriteAt [5, 6, 7, 8, 9] (vecRange ([4, 3, 2, 1, 0] : List Int)) 1 42 =
      [5, 6, 7, 42, 9] := by
  obtain ⟨h1, h2, h3, h4⟩ := indexing_gather_spec [5, 6, 7, 8, 9] [4, 3, 2, 1, 0] (by decide)
  exact ⟨(h2 0 (by decide)).trans (by decide), h3, (h4 1 42 (by decide)).trans (by decide)⟩

end Indexing

/-- Model of `check_duplicate` (cherry.hpp lines 511-520): insert every
traversed element into a `std::set` (a mathematical set of values, modelled
as a `Finset`), count the elements, and report whether the final set size
differs from the element count. -/
def check_duplicate (l : List Int) : Bool :=
  let s := l.foldl (fun s x => insert x s) (∅ : Finset Int)
  decide (s.card ≠ l.length)

theorem foldl_insert_eq_union (l : List Int) :
    ∀ s : Finset Int, l.foldl (fun s x => insert x s) s = s ∪ l.toFinset := by
  induction l with
  | nil =>
    intro s
    simp
  | cons x l ih =>
    intro s
    rw [List.foldl_cons, ih (insert x s), List.toFinset_cons]
    ext y
    simp

section Duplicate

/-- C8: `check_duplicate` returns true exactly when the distinct-value
count differs from the element count, i.e. iff some value occurs more than
once; on the concrete tests, `[1,1,2,3,4]` has a duplicate while the shift
view dropping the first element does not. -/
theorem check_duplicate_spec :
    (∀ l : List Int, check_duplicate l = true ↔ ¬l.Nodup) ∧
    check_duplicate [1, 1, 2, 3, 4] = true ∧
    check_duplicate (traverseFwd (shiftRange (vecRange ([1, 1, 2, 3, 4] : List Int)) 1 (-1))) =
      false := by
  refine ⟨?_, by decide, by decide⟩
  intro l
  have hcard : l.dedup.length = l.length ↔ l.Nodup := by
    constructor
    · intro h
      exact List.dedup_eq_self.mp ((List.dedup_sublist l).eq_of_length h)
    · intro h
      rw [List.dedup_eq_self.mpr h]
  simp only [check_duplicate, foldl_insert_eq_union, Finset.empty_union,
    List.card_toFinset, decide_eq_true_eq]
  exact not_congr hcard

end Duplicate

/-- Model of the `Bitset` word array.  On the 64-bit target of the tests
`width = sizeof(size_t) = 8`, and `allocate` reserves `n * width` bytes,
i.e. exactly `n` words of `data`. -/
structure Bitset where
  n : Nat
  data : List Nat

/-- The constant `width = sizeof(size_t)` of the target platform. -/
def Bitset.width : Nat := 8

/-- Word count computed by `allocate(bits)`:
`n = bits / width + (bits % width == 0 ? 0 : 1)`. -/
def allocWords (bits : Nat) : Nat :=
  bits / Bitset.width + (if bits % Bitset.width = 0 then 0 else 1)

/-- A `Bitset(bits)` whose memory has been zeroed by `clear()`
(`memset(data, 0, n * width)`). -/
def clearedBitset (bits : Nat) : Bitset :=
  { n := allocWords bits, data := List.replicate (allocWords bits) 0 }

/-- Model of `Bitset::set_bit(index, bit)` (cherry.hpp lines 687-695):
`data[i] |= 1 << s; data[i] ^= 1 << s; data[i] |= bit << s` with
`i = index / width`, `s = index % width`. -/
def Bitset.set_bit (bs : Bitset) (index : Nat) (bit : Bool) : Bitset :=
  let i := index / Bitset.width
  let s := index % Bitset.width
  let w1 := bs.data.getD i 0 ||| (1 <<< s)
  let w2 := w1 ^^^ (1 <<< s)
  let w3 := w2 ||| ((if bit then 1 else 0) <<< s)
  { bs with data := bs.data.set i w3 }

/-- Model of `Bitset::get_bit(index)` (cherry.hpp lines 698-702):
`return data[i] >> s;` — the `size_t` value `data[i] >> s` converted to
`bool`, i.e. true iff the shifted word is nonzero.  Note the absence of a
`& 1` mask. -/
def Bitset.get_bit (bs : Bitset) (index : Nat) : Bool :=
  let i := index / Bitset.width
  let s := index % Bitset.width
  decide (bs.data.getD i 0 >>> s ≠ 0)

/-- C10 fails on the code: `get_bit` returns the whole shifted word
converted to `bool` instead of the single bit, so on a cleared 8-bit
`Bitset`, `set_bit(1, true)` makes `get_bit(0)` flip from `false` to
`true`, although index `0` was never set — the round trip at the written
index itself does hold here, but the framing of the other bits does not. -/
theorem bitset_get_bit_bug :
    Bitset.get_bit ((clearedBitset 8).set_bit 1 true) 1 = true ∧
    Bitset.get_bit (clearedBitset 8) 0 = false ∧
    Bitset.get_bit ((clearedBitset 8).set_bit 1 true) 0 = true := by
  decide

end Cherry
